import Mathlib

/-!
Verification of the RAG demo application (`app_zh.py`).

The application is a thin orchestration script: at startup it checks the
`QUESTION_LANG` environment value, binds localized UI text, loads and splits a
Markdown document, and builds a retriever and an answer chain; per request the
function `rag_answer` retrieves chunks, generates an answer, and highlights the
retrieved chunk texts inside the original document with `str.replace`.

The embedding below models text as `List Char`.  Python `str.replace` (replace
all leftmost non-overlapping occurrences, scanning left to right) is embedded
as a fuel-indexed structural recursion `replaceFuel`, wrapped by `pyReplace`
which also reproduces Python's behaviour on an empty pattern.  The per-request
pipeline `rag_answer` is embedded with the fallible retrieval/generation call
`execute_query` passed in as a function returning `Except`, and the
process-wide startup state passed explicitly as a `ProcState` record.
-/

set_option maxHeartbeats 1000000

namespace RAGZh

/-- A LangChain document record as consumed by `rag_answer`: only its
`page_content` field is ever read. -/
structure Document where
  page_content : List Char
deriving DecidableEq

/-- Decidable test that `pat` occurs at the very start of `s`; this is the
matching primitive of the embedded Python `str.replace` scan. -/
def startsWith : List Char → List Char → Bool
  | [], _ => true
  | _ :: _, [] => false
  | p :: ps, c :: cs => p == c && startsWith ps cs

/-- Fuel-indexed left-to-right scan of Python `str.replace(pat, rep)` for a
nonempty `pat`: the leftmost occurrence of `pat` is replaced by `rep` and the
scan resumes immediately after the replaced occurrence, so matched regions are
never rescanned.  Any `fuel` at least the length of the string makes the scan
run to completion. -/
def replaceFuel (pat rep : List Char) : Nat → List Char → List Char
  | _, [] => []
  | 0, s => s
  | fuel + 1, c :: rest =>
    if startsWith pat (c :: rest) then
      rep ++ replaceFuel pat rep fuel (rest.drop (pat.length - 1))
    else
      c :: replaceFuel pat rep fuel rest

/-- Python `str.replace(pat, rep)`: every leftmost non-overlapping occurrence
of `pat` is replaced by `rep`.  For an empty `pat`, Python inserts `rep` at
every gap of the string (before, between and after all characters). -/
def pyReplace (s pat rep : List Char) : List Char :=
  if pat = [] then rep ++ List.flatten (s.map fun c => c :: rep)
  else replaceFuel pat rep s.length s

/-- Opening highlight marker `<mark>` from the f-string on line 66 of
`app_zh.py`. -/
def markOpen : List Char := "<mark>".data

/-- Closing highlight marker `</mark>` from the f-string on line 66 of
`app_zh.py`. -/
def markClose : List Char := "</mark>".data

/-- The replacement text built by the f-string `"<mark>" + chunk + "</mark>"`. -/
def markWrap (c : List Char) : List Char := markOpen ++ c ++ markClose

/-- One iteration of the highlighting loop of `rag_answer` (line 66):
`highlighted_document = highlighted_document.replace(context_i, "<mark>" + context_i + "</mark>")`. -/
def highlightStep (doc c : List Char) : List Char := pyReplace doc c (markWrap c)

/-- The whole highlighting loop of `rag_answer` (lines 65-66): a left fold of
`highlightStep` over the retrieved chunk texts in retrieval order. -/
def highlightAll (doc : List Char) (context : List (List Char)) : List Char :=
  context.foldl highlightStep doc

/-- The fixed fallback answer returned by `rag_answer` when an exception is
caught (line 69 of `app_zh.py`). -/
def fallbackMessage : List Char := "处理您的问题时出现错误，请稍后再试。".data

/-- The process-wide state built at startup and read (never written) by
`rag_answer`: the loaded original document list and the chunk list. -/
structure ProcState where
  orig_documents : List Document
  chunks : List (List Char)
deriving DecidableEq

/-- The body of the `try` block of `rag_answer` (lines 61-66): call
`execute_query`, project the retrieved documents to their `page_content`,
index `orig_documents[0]` (an `IndexError` when the list is empty is also an
exception caught by the handler), and run the highlighting loop.  Any error of
`execute_query` propagates through the `do` block to the handler. -/
def ragTry (execute_query : List Char → Except String (List Document × List Char))
    (st : ProcState) (question : List Char) :
    Except String (List Char × List Char) := do
  let (retrieved_documents, answer) ← execute_query question
  let context := retrieved_documents.map Document.page_content
  match st.orig_documents with
  | [] => Except.error "IndexError: list index out of range"
  | d :: _ => Except.ok (answer, highlightAll d.page_content context)

/-- The function `rag_answer` of `app_zh.py` (lines 59-70): run the pipeline;
on any exception return the fixed fallback message paired with the empty
string; otherwise return the generated answer and the highlighted document.
The (unchanged) process state is returned explicitly to express that the
function performs no write to the startup state. -/
def rag_answer (execute_query : List Char → Except String (List Document × List Char))
    (st : ProcState) (question : List Char) :
    ProcState × List Char × List Char :=
  match ragTry execute_query st question with
  | Except.error _ => (st, fallbackMessage, [])
  | Except.ok (answer, highlighted_document) => (st, answer, highlighted_document)

/-- The startup language check of `app_zh.py` (lines 24-25):
`QUESTION_LANG = os.getenv("QUESTION_LANG")` followed by
`assert QUESTION_LANG in ['cn', 'en']`.  A missing variable is `none`. -/
def questionLangValid : Option String → Bool
  | none => false
  | some s => s == "cn" || s == "en"

/-- The module-level assertion as a fallible startup step: it fails (models a
raised `AssertionError`, aborting the process before any request is served)
unless `QUESTION_LANG` is exactly `"cn"` or `"en"`. -/
def startupAssert (q : Option String) : Except String Unit :=
  if questionLangValid q then Except.ok () else Except.error "AssertionError"

/-- The localized text bundle bound by the `if QUESTION_LANG == "cn":` block
(lines 27-45 of `app_zh.py`). -/
structure LocalizedBundle where
  title : String
  title_markdown : String
  tos_markdown : String
deriving DecidableEq

/-- The `title` string bound under `QUESTION_LANG == "cn"` (line 28). -/
def cnTitle : String := "LightZero RAG Demo"

/-- The `title_markdown` string bound under `QUESTION_LANG == "cn"`
(lines 29-37). -/
def cnTitleMarkdown : String := "\n    <div align=\"center\">\n        <img src=\"https://raw.githubusercontent.com/puyuan1996/RAG/main/assets/banner.svg\" width=\"80%\" height=\"20%\" alt=\"Banner Image\">\n    </div>\n    <h2 style=\"text-align: center; color: black;\"><a href=\"https://github.com/puyuan1996/RAG\"> LightZero RAG Demo</a></h2>\n    <h4 align=\"center\"> 📢说明：请您在下面的\"问题（Q）\"框中输入任何关于 LightZero 的问题，然后点击\"提交\"按钮。右侧\"回答（A）\"框中会显示 RAG 模型给出的回答。在 QA 栏的下方会给出参考文档（其中检索得到的相关文段会用黄色高亮显示）。</h4>\n    <h4 align=\"center\"> 如果你喜欢这个项目，请给我们在 GitHub 点个 star ✨ 。我们将会持续保持更新。  </h4>\n    <strong><h5 align=\"center\">注意：算法模型的输出可能包含一定的随机性。相关结果不代表任何开发者和相关 AI 服务的态度和意见。本项目开发者不对生成结果作任何保证，仅供参考。<h5></strong>\n    "

/-- The `tos_markdown` string bound under `QUESTION_LANG == "cn"`
(lines 38-45). -/
def cnTosMarkdown : String := "\n    ### 使用条款\n    玩家使用本服务须同意以下条款：\n    该服务是一项探索性研究预览版，仅供非商业用途。它仅提供有限的安全措施，并可能生成令人反感的内容。不得将其用于任何非法、有害、暴力、种族主义等目的。\n    如果您的游玩体验有不佳之处，请发送邮件至 opendilab@pjlab.org.cn ！ 我们将删除相关信息，并不断改进这个项目。\n    为了获得最佳体验，请使用台式电脑，因为移动设备可能会影响可视化效果。\n    **版权所有 2024 OpenDILab。**\n    "

/-- The module-level binding of the localized bundle: `app_zh.py` only has the
`if QUESTION_LANG == "cn":` branch (line 27), so under any other accepted
language value the names `title`, `title_markdown` and `tos_markdown` are
never bound (`none`). -/
def localizedBundle (lang : String) : Option LocalizedBundle :=
  if lang = "cn" then
    some { title := cnTitle, title_markdown := cnTitleMarkdown,
           tos_markdown := cnTosMarkdown }
  else none

/-- The document path of line 48 of `app_zh.py`, bound unconditionally (not
per language). -/
def file_path : String := "./documents/LightZero_README.zh.md"

/-- Construction of the Gradio application (line 80): `gr.Blocks(title=title,
...)` reads the name `title`; when the `cn` branch did not run, the name is
unbound and Python raises `NameError`, so construction fails. -/
def buildDemo (lang : String) : Except String String :=
  match localizedBundle lang with
  | some b => Except.ok b.title
  | none => Except.error "NameError: name title is not defined"

/-- Concatenation of a list of segments with a separator between consecutive
segments; the decomposition vocabulary used to state what the replacement scan
does to a document. -/
def joinWith (sep : List Char) : List (List Char) → List Char
  | [] => []
  | [s] => s
  | s :: ss => s ++ sep ++ joinWith sep ss

/-- Modelled from the spec: fuel-indexed leftmost split of a string at the
occurrences of a nonempty pattern, the auxiliary scan of the reference
description of naive replace-all (each occurrence found left to right becomes
a separator position, and scanning resumes after the occurrence). -/
def splitFuel (pat : List Char) : Nat → List Char → List (List Char)
  | _, [] => [[]]
  | 0, s => [s]
  | fuel + 1, c :: rest =>
    if startsWith pat (c :: rest) then
      [] :: splitFuel pat fuel (rest.drop (pat.length - 1))
    else
      match splitFuel pat fuel rest with
      | [] => [[c]]
      | t :: ts => (c :: t) :: ts

/-- Modelled from the spec: the leftmost split of `s` at occurrences of `pat`. -/
def specSplit (pat s : List Char) : List (List Char) := splitFuel pat s.length s

/-- Modelled from the spec ("naive sequential replace-all per chunk"):
replace all occurrences of `pat` in `s` by `rep`, rendered independently of
the source embedding as split-at-occurrences followed by rejoining with the
replacement as the new separator. -/
def specReplaceAll (s pat rep : List Char) : List Char :=
  joinWith rep (specSplit pat s)

/-- Modelled from the spec: the naive reference highlighting algorithm, a
sequential left-to-right pass over the chunk texts in retrieval order, each
pass replacing all occurrences of that chunk text in the result of the
previous pass with its marker-wrapped form. -/
def specHighlightNaive (doc : List Char) (context : List (List Char)) : List Char :=
  context.foldl (fun d c => specReplaceAll d c (markWrap c)) doc

/-- Fuel-indexed one-pass removal of every occurrence of the two highlight
marker strings `<mark>` and `</mark>`, scanning left to right (the two marker
strings differ at their second character, so at most one of them can match at
any position). -/
def stripFuel : Nat → List Char → List Char
  | _, [] => []
  | 0, s => s
  | fuel + 1, c :: rest =>
    if startsWith markOpen (c :: rest) then
      stripFuel fuel ((c :: rest).drop markOpen.length)
    else if startsWith markClose (c :: rest) then
      stripFuel fuel ((c :: rest).drop markClose.length)
    else
      c :: stripFuel fuel rest

/-- Removal of every occurrence of `<mark>` and `</mark>` from a string: the
strip-markers half of the round trip stated in the spec. -/
def stripMarkers (s : List Char) : List Char := stripFuel s.length s

/-- Absence of matches of `pat` that start inside `a` and spill over into `b`:
every way a nonempty suffix of `a` continued by `b` can begin with `pat`
already fits inside that suffix of `a`.  Under this condition the replacement
scan treats `a ++ b` as `a` followed by `b` independently. -/
def NoCross (pat a b : List Char) : Prop :=
  ∀ s', s' <:+ a → s' ≠ [] → startsWith pat (s' ++ b) = true → pat.length ≤ s'.length

/-- Relation `Ins s d`: the string `s` is the marker-char-free document `d`
with whole highlight marker strings `<mark>` and `</mark>` inserted at
arbitrary positions.  The raw (non-inserted) characters carry the side
condition that they are not `<` or `>`, so that inserted markers can never be
confused with document text. -/
inductive Ins : List Char → List Char → Prop where
  | nil : Ins [] []
  | chr : ∀ (c : Char) (s d : List Char),
      c ≠ '<' → c ≠ '>' → Ins s d → Ins (c :: s) (c :: d)
  | op : ∀ (s d : List Char),
      Ins s d → Ins ('<' :: 'm' :: 'a' :: 'r' :: 'k' :: '>' :: s) d
  | cl : ∀ (s d : List Char),
      Ins s d → Ins ('<' :: '/' :: 'm' :: 'a' :: 'r' :: 'k' :: '>' :: s) d

/-- C1: whenever any step of the per-request pipeline raises (the
retrieval/generation call `execute_query`, or the document indexing feeding
the highlighting step), `rag_answer` catches the exception and returns the
fixed fallback answer paired with the empty context string, leaving the
process state intact so later requests can still be served. -/
theorem c1_exception_returns_fallback
    (execute_query : List Char → Except String (List Document × List Char))
    (st : ProcState) (question : List Char) (err : String)
    (h : ragTry execute_query st question = Except.error err) :
    rag_answer execute_query st question = (st, fallbackMessage, ([] : List Char)) := by
  unfold rag_answer
  rw [h]

theorem c1_exception_returns_fallback_witness :
    rag_answer (fun _ => Except.error "boom") ⟨[], []⟩ [] =
      (⟨[], []⟩, fallbackMessage, ([] : List Char)) :=
  c1_exception_returns_fallback (fun _ => Except.error "boom") ⟨[], []⟩ [] "boom" rfl

/-- C6: on the concrete document `A cat sat. A dog ran. A bird flew.` with the
single retrieved chunk `A cat sat. `, the highlighting step yields exactly
`<mark>A cat sat. </mark>A dog ran. A bird flew.`. -/
theorem c6_concrete_highlight_example :
    highlightAll "A cat sat. A dog ran. A bird flew.".data ["A cat sat. ".data] =
      "<mark>A cat sat. </mark>A dog ran. A bird flew.".data := by
  decide

/-- C7: when the `QUESTION_LANG` environment value is missing or is any string
other than `cn` or `en`, the startup assertion fails (the process aborts
before serving requests) instead of degrading silently. -/
theorem c7_invalid_lang_fails_startup
    (q : Option String) (h : ∀ s, q = some s → s ≠ "cn" ∧ s ≠ "en") :
    startupAssert q = Except.error "AssertionError" := by
  cases q with
  | none => rfl
  | some s =>
    obtain ⟨h1, h2⟩ := h s rfl
    simp [startupAssert, questionLangValid, h1, h2]

theorem c7_invalid_lang_fails_startup_witness :
    startupAssert (some "fr") = Except.error "AssertionError" :=
  c7_invalid_lang_fails_startup (some "fr")
    (fun s hs => by cases hs; exact ⟨by decide, by decide⟩)

/-- C8 counterexample: the claim that the application can be constructed under
either accepted language value fails at the concrete value `en`: `app_zh.py`
only binds `title`, `title_markdown` and `tos_markdown` under
`QUESTION_LANG == "cn"`, so constructing the Gradio blocks under `en` reads an
unbound name and fails. -/
theorem c8_en_construction_fails : (buildDemo "en").isOk = false := by
  simp [buildDemo, localizedBundle, Except.isOk, Except.toBool]

/-- C8 (amended): startup binds the fixed localized bundle and the hardcoded
document path, and the application is constructible, only under the language
value `cn`; under the other accepted value `en` no bundle is bound and
construction fails, and the document path is the same Chinese-variant file
regardless of the language value. -/
theorem c8_cn_binds_bundle :
    localizedBundle "cn" =
        some { title := cnTitle, title_markdown := cnTitleMarkdown,
               tos_markdown := cnTosMarkdown } ∧
      buildDemo "cn" = Except.ok cnTitle ∧
      localizedBundle "en" = none ∧
      (buildDemo "en").isOk = false ∧
      file_path = "./documents/LightZero_README.zh.md" := by
  refine ⟨?_, ?_, ?_, ?_, rfl⟩ <;>
    simp [buildDemo, localizedBundle, Except.isOk, Except.toBool]

/-- C9: `rag_answer` never writes the process-wide startup state: the state
component of its result is exactly the input state, and re-running the request
from the resulting state reproduces the same result (idempotence with respect
to the shared read-only index; its only other effects are the outbound calls
made by `execute_query` itself). -/
theorem c9_no_state_mutation
    (execute_query : List Char → Except String (List Document × List Char))
    (st : ProcState) (question : List Char) :
    (rag_answer execute_query st question).1 = st ∧
      rag_answer execute_query (rag_answer execute_query st question).1 question =
        rag_answer execute_query st question := by
  have h1 : (rag_answer execute_query st question).1 = st := by
    unfold rag_answer
    cases ragTry execute_query st question with
    | error e => rfl
    | ok v => rfl
  exact ⟨h1, by rw [h1]⟩

/-- C10: when the retriever returns an empty result list and the chain returns
an answer without raising, `rag_answer` passes the answer through unmodified
and returns the original document text exactly, with no highlight markers
inserted. -/
theorem c10_empty_retrieval_returns_plain_document
    (execute_query : List Char → Except String (List Document × List Char))
    (st : ProcState) (question answer : List Char) (d : Document) (ds : List Document)
    (hdocs : st.orig_documents = d :: ds)
    (hq : execute_query question = Except.ok ([], answer)) :
    rag_answer execute_query st question = (st, answer, d.page_content) := by
  unfold rag_answer ragTry
  rw [hq, hdocs]
  rfl

theorem c10_empty_retrieval_returns_plain_document_witness :
    rag_answer (fun _ => Except.ok ([], "hi".data)) ⟨[⟨"doc text".data⟩], []⟩ [] =
      (⟨[⟨"doc text".data⟩], []⟩, "hi".data, "doc text".data) :=
  c10_empty_retrieval_returns_plain_document _ _ _ _ ⟨"doc text".data⟩ [] rfl rfl

theorem replaceFuel_nil (pat rep : List Char) (fuel : Nat) :
    replaceFuel pat rep fuel [] = [] := by
  cases fuel <;> rfl

theorem startsWith_iff (pat : List Char) :
    ∀ s, startsWith pat s = true ↔ ∃ u, pat ++ u = s := by
  induction pat with
  | nil => intro s; simp [startsWith]
  | cons p ps ih =>
    intro s
    cases s with
    | nil => simp [startsWith]
    | cons c cs =>
      simp only [startsWith, Bool.and_eq_true, beq_iff_eq, ih, List.cons_append,
        List.cons.injEq]
      constructor
      · rintro ⟨rfl, u, rfl⟩; exact ⟨u, rfl, rfl⟩
      · rintro ⟨u, rfl, rfl⟩; exact ⟨rfl, u, rfl⟩

theorem joinWith_cons_nonempty (sep s : List Char) (segs : List (List Char))
    (h : segs ≠ []) : joinWith sep (s :: segs) = s ++ sep ++ joinWith sep segs := by
  cases segs with
  | nil => exact absurd rfl h
  | cons t ts => rfl

theorem joinWith_cons_cons (sep : List Char) (c : Char) (t : List Char)
    (ts : List (List Char)) :
    joinWith sep ((c :: t) :: ts) = c :: joinWith sep (t :: ts) := by
  cases ts with
  | nil => rfl
  | cons u us => rfl

theorem splitFuel_ne_nil (pat : List Char) :
    ∀ fuel s, splitFuel pat fuel s ≠ [] := by
  intro fuel
  induction fuel with
  | zero => intro s; cases s <;> simp [splitFuel]
  | succ f ih =>
    intro s
    cases s with
    | nil => simp [splitFuel]
    | cons c rest =>
      by_cases h : startsWith pat (c :: rest) = true
      · simp [splitFuel, h]
      · cases hs : splitFuel pat f rest with
        | nil => exact absurd hs (ih rest)
        | cons t ts => simp [splitFuel, h, hs]

theorem replaceFuel_decompose (pat : List Char) (hp : pat ≠ []) :
    ∀ fuel s, s.length ≤ fuel →
      ∃ segs : List (List Char), segs ≠ [] ∧ (∀ t ∈ segs, ¬ pat <:+: t) ∧
        s = joinWith pat segs ∧
        ∀ rep, replaceFuel pat rep fuel s = joinWith rep segs := by
  intro fuel
  induction fuel with
  | zero =>
    intro s hs
    have hnil : s = [] := List.length_eq_zero.mp (Nat.le_zero.mp hs)
    subst hnil
    refine ⟨[[]], by simp, ?_, rfl, fun rep => by rw [replaceFuel_nil]; rfl⟩
    intro t ht
    simp only [List.mem_singleton] at ht
    subst ht
    rintro ⟨l, r, hl⟩
    simp only [List.append_eq_nil] at hl
    exact hp hl.1.2
  | succ f ih =>
    intro s hs
    cases s with
    | nil =>
      refine ⟨[[]], by simp, ?_, rfl, fun rep => by rw [replaceFuel_nil]; rfl⟩
      intro t ht
      simp only [List.mem_singleton] at ht
      subst ht
      rintro ⟨l, r, hl⟩
      simp only [List.append_eq_nil] at hl
      exact hp hl.1.2
    | cons c rest =>
      by_cases h : startsWith pat (c :: rest) = true
      · obtain ⟨u, hu⟩ := (startsWith_iff pat (c :: rest)).mp h
        obtain ⟨n, hn⟩ : ∃ n, pat.length = n + 1 := by
          cases pat with
          | nil => exact absurd rfl hp
          | cons a as => exact ⟨as.length, rfl⟩
        have hdrop : rest.drop (pat.length - 1) = u := by
          have h1 : (pat ++ u).drop pat.length = u := List.drop_left pat u
          rw [hu, hn] at h1
          rw [hn]
          simpa using h1
        obtain ⟨segs, hne, hno, hjoin, hrepl⟩ :=
          ih (rest.drop (pat.length - 1))
            (by simp only [List.length_drop]; simp only [List.length_cons] at hs; omega)
        refine ⟨[] :: segs, by simp, ?_, ?_, ?_⟩
        · intro t ht
          rcases List.mem_cons.mp ht with h1 | h1
          · subst h1
            rintro ⟨l, r, hl⟩
            simp only [List.append_eq_nil] at hl
            exact hp hl.1.2
          · exact hno t h1
        · rw [joinWith_cons_nonempty _ _ _ hne, ← hjoin, hdrop]
          simp [hu]
        · intro rep
          have e : replaceFuel pat rep (f + 1) (c :: rest) =
              rep ++ replaceFuel pat rep f (rest.drop (pat.length - 1)) := by
            simp [replaceFuel, h]
          rw [e, hrepl rep, joinWith_cons_nonempty _ _ _ hne]
          simp
      · obtain ⟨segs, hne, hno, hjoin, hrepl⟩ :=
          ih rest (by simp only [List.length_cons] at hs; omega)
        obtain ⟨t, ts, rfl⟩ : ∃ t ts, segs = t :: ts := by
          cases segs with
          | nil => exact absurd rfl hne
          | cons t ts => exact ⟨t, ts, rfl⟩
        refine ⟨(c :: t) :: ts, by simp, ?_, ?_, ?_⟩
        · intro x hx
          rcases List.mem_cons.mp hx with h1 | h1
          · subst h1
            rintro ⟨l, r, hl⟩
            cases l with
            | nil =>
              simp only [List.nil_append] at hl
              have hw : ∃ w, (c :: t) ++ w = c :: rest := by
                cases ts with
                | nil =>
                  refine ⟨[], ?_⟩
                  have : rest = t := hjoin
                  simp [this]
                | cons v vs =>
                  refine ⟨pat ++ joinWith pat (v :: vs), ?_⟩
                  rw [joinWith_cons_nonempty _ _ _ (by simp)] at hjoin
                  simp [hjoin, List.append_assoc]
              obtain ⟨w, hw⟩ := hw
              have hsw : startsWith pat (c :: rest) = true := by
                apply (startsWith_iff _ _).mpr
                refine ⟨r ++ w, ?_⟩
                rw [← hw, ← hl]
                simp [List.append_assoc]
              exact h hsw
            | cons a l' =>
              simp only [List.cons_append, List.cons.injEq] at hl
              exact hno t (List.mem_cons_self _ _) ⟨l', r, hl.2⟩
          · exact hno x (List.mem_cons_of_mem _ h1)
        · rw [joinWith_cons_cons, ← hjoin]
        · intro rep
          have e : replaceFuel pat rep (f + 1) (c :: rest) =
              c :: replaceFuel pat rep f rest := by
            simp [replaceFuel, h]
          rw [e, hrepl rep, joinWith_cons_cons]

/-- C2: for every document and every nonempty chunk text occurring in it, the
highlighting step returns the document with every (leftmost, non-overlapping)
occurrence of the chunk wrapped as `<mark>chunk</mark>`: the document splits
into segments free of the chunk text, separated by the occurrences, and the
output is exactly the same segments separated by the wrapped chunk, so all
text outside the matched occurrences is unchanged. -/
theorem c2_highlight_wraps_every_occurrence (doc pat : List Char)
    (hp : pat ≠ []) (hocc : pat <:+: doc) :
    ∃ segs : List (List Char), 2 ≤ segs.length ∧ (∀ t ∈ segs, ¬ pat <:+: t) ∧
      doc = joinWith pat segs ∧ highlightStep doc pat = joinWith (markWrap pat) segs := by
  obtain ⟨segs, hne, hno, hjoin, hrepl⟩ :=
    replaceFuel_decompose pat hp doc.length doc le_rfl
  refine ⟨segs, ?_, hno, hjoin, ?_⟩
  · match segs, hne with
    | [t], _ =>
      have hdt : doc = t := hjoin
      exact absurd (hdt ▸ hocc) (hno t (List.mem_cons_self _ _))
    | t :: u :: ts, _ => simp
  · unfold highlightStep pyReplace
    rw [if_neg hp]
    exact hrepl (markWrap pat)

theorem c2_highlight_wraps_every_occurrence_witness :
    ∃ segs : List (List Char), 2 ≤ segs.length ∧
      (∀ t ∈ segs, ¬ "a".data <:+: t) ∧
      "ab".data = joinWith "a".data segs ∧
      highlightStep "ab".data "a".data = joinWith (markWrap "a".data) segs :=
  c2_highlight_wraps_every_occurrence "ab".data "a".data (by decide) (by decide)

theorem replaceFuel_eq_splitFuel (pat rep : List Char) :
    ∀ fuel s, replaceFuel pat rep fuel s = joinWith rep (splitFuel pat fuel s) := by
  intro fuel
  induction fuel with
  | zero => intro s; cases s <;> rfl
  | succ f ih =>
    intro s
    cases s with
    | nil => rfl
    | cons c rest =>
      by_cases h : startsWith pat (c :: rest) = true
      · have e1 : replaceFuel pat rep (f + 1) (c :: rest) =
            rep ++ replaceFuel pat rep f (rest.drop (pat.length - 1)) := by
          simp [replaceFuel, h]
        have e2 : splitFuel pat (f + 1) (c :: rest) =
            [] :: splitFuel pat f (rest.drop (pat.length - 1)) := by
          simp [splitFuel, h]
        rw [e1, e2, ih, joinWith_cons_nonempty _ _ _ (splitFuel_ne_nil pat f _)]
        simp
      · cases hs : splitFuel pat f rest with
        | nil => exact absurd hs (splitFuel_ne_nil pat f rest)
        | cons t ts =>
          have e1 : replaceFuel pat rep (f + 1) (c :: rest) =
              c :: replaceFuel pat rep f rest := by
            simp [replaceFuel, h]
          have e2 : splitFuel pat (f + 1) (c :: rest) = (c :: t) :: ts := by
            simp [splitFuel, h, hs]
          rw [e1, e2, ih, hs, joinWith_cons_cons]

/-- C3: the highlighting computation of `rag_answer` coincides with the naive
reference algorithm (a sequential left-to-right pass over the chunk texts in
retrieval order, each pass replacing all occurrences of that chunk in the
result of the previous pass — rendered via split-at-occurrences and rejoin),
and on the concrete document `abc` with chunk sequence `abc`, `b` the second
pass rewrites inside the region marked by the first, producing nested
markers. -/
theorem c3_equals_naive_sequential_replace :
    (∀ doc context, (∀ t ∈ context, t ≠ []) →
        highlightAll doc context = specHighlightNaive doc context) ∧
      highlightAll "abc".data ["abc".data, "b".data] =
        "<mark>a<mark>b</mark>c</mark>".data := by
  constructor
  · intro doc context
    induction context generalizing doc with
    | nil => intro _; rfl
    | cons t ts ih =>
      intro hts
      have hstep : highlightStep doc t = specReplaceAll doc t (markWrap t) := by
        have ht : t ≠ [] := hts t (List.mem_cons_self _ _)
        unfold highlightStep pyReplace specReplaceAll specSplit
        rw [if_neg ht]
        exact replaceFuel_eq_splitFuel t (markWrap t) doc.length doc
      show highlightAll (highlightStep doc t) ts =
        specHighlightNaive (specReplaceAll doc t (markWrap t)) ts
      rw [hstep]
      exact ih _ (fun x hx => hts x (List.mem_cons_of_mem _ hx))
  · decide

theorem c3_equals_naive_sequential_replace_witness :
    highlightAll "ab".data ["b".data] = specHighlightNaive "ab".data ["b".data] :=
  c3_equals_naive_sequential_replace.1 "ab".data ["b".data] (by decide)

theorem replaceFuel_no_occur (pat rep : List Char) :
    ∀ fuel s, s.length ≤ fuel → ¬ pat <:+: s → replaceFuel pat rep fuel s = s := by
  intro fuel
  induction fuel with
  | zero =>
    intro s hs _
    have hnil : s = [] := List.length_eq_zero.mp (Nat.le_zero.mp hs)
    subst hnil
    exact replaceFuel_nil pat rep 0
  | succ f ih =>
    intro s hs hno
    cases s with
    | nil => exact replaceFuel_nil pat rep (f + 1)
    | cons c rest =>
      have h : ¬ startsWith pat (c :: rest) = true := by
        intro hc
        obtain ⟨u, hu⟩ := (startsWith_iff pat (c :: rest)).mp hc
        exact hno ⟨[], u, by simp [hu]⟩
      have e : replaceFuel pat rep (f + 1) (c :: rest) =
          c :: replaceFuel pat rep f rest := by
        simp [replaceFuel, h]
      rw [e]
      have hno' : ¬ pat <:+: rest := by
        rintro ⟨l, r, hl⟩
        exact hno ⟨c :: l, r, by rw [List.cons_append, List.cons_append, hl]⟩
      rw [ih rest (by simp only [List.length_cons] at hs; omega) hno']

/-- C4: a chunk text that does not occur verbatim in the current document
string leaves that replacement pass exactly a no-op, and the passes for the
remaining chunks proceed exactly as if the absent chunk were not in the list;
no error arises. -/
theorem c4_absent_chunk_is_noop :
    (∀ doc t, ¬ t <:+: doc → highlightStep doc t = doc) ∧
      ∀ doc pre t post, ¬ t <:+: highlightAll doc pre →
        highlightAll doc (pre ++ t :: post) = highlightAll doc (pre ++ post) := by
  have main : ∀ doc t, ¬ t <:+: doc → highlightStep doc t = doc := by
    intro doc t h
    have ht : t ≠ [] := by
      rintro rfl
      exact h ⟨[], doc, by simp⟩
    unfold highlightStep pyReplace
    rw [if_neg ht]
    exact replaceFuel_no_occur t (markWrap t) doc.length doc le_rfl h
  refine ⟨main, ?_⟩
  intro doc pre t post h
  unfold highlightAll
  rw [List.foldl_append, List.foldl_append]
  simp only [List.foldl_cons]
  rw [main (List.foldl highlightStep doc pre) t h]

theorem c4_absent_chunk_is_noop_witness :
    highlightStep "abc".data "zz".data = "abc".data :=
  c4_absent_chunk_is_noop.1 "abc".data "zz".data (by decide)

theorem markOpen_eq : markOpen = '<' :: 'm' :: 'a' :: 'r' :: 'k' :: '>' :: [] := rfl

theorem markClose_eq :
    markClose = '<' :: '/' :: 'm' :: 'a' :: 'r' :: 'k' :: '>' :: [] := rfl

theorem replaceFuel_stable (pat rep : List Char) :
    ∀ f g s, s.length ≤ f → s.length ≤ g →
      replaceFuel pat rep f s = replaceFuel pat rep g s := by
  intro f
  induction f with
  | zero =>
    intro g s hf _
    have hnil : s = [] := List.length_eq_zero.mp (Nat.le_zero.mp hf)
    subst hnil
    simp [replaceFuel_nil]
  | succ f ih =>
    intro g s hf hg
    cases s with
    | nil => simp [replaceFuel_nil]
    | cons c rest =>
      cases g with
      | zero => exact absurd hg (by simp)
      | succ g' =>
        simp only [List.length_cons] at hf hg
        by_cases h : startsWith pat (c :: rest) = true
        · have e1 : replaceFuel pat rep (f + 1) (c :: rest) =
              rep ++ replaceFuel pat rep f (rest.drop (pat.length - 1)) := by
            simp [replaceFuel, h]
          have e2 : replaceFuel pat rep (g' + 1) (c :: rest) =
              rep ++ replaceFuel pat rep g' (rest.drop (pat.length - 1)) := by
            simp [replaceFuel, h]
          rw [e1, e2,
            ih g' _ (by simp [List.length_drop]; omega) (by simp [List.length_drop]; omega)]
        · have e1 : replaceFuel pat rep (f + 1) (c :: rest) =
              c :: replaceFuel pat rep f rest := by
            simp [replaceFuel, h]
          have e2 : replaceFuel pat rep (g' + 1) (c :: rest) =
              c :: replaceFuel pat rep g' rest := by
            simp [replaceFuel, h]
          rw [e1, e2, ih g' rest (by omega) (by omega)]

theorem startsWith_of_append_left (pat x b : List Char)
    (h : startsWith pat x = true) : startsWith pat (x ++ b) = true := by
  obtain ⟨u, hu⟩ := (startsWith_iff _ _).mp h
  exact (startsWith_iff _ _).mpr ⟨u ++ b, by rw [← List.append_assoc, hu]⟩

theorem startsWith_append_of_le (pat x b : List Char)
    (h : startsWith pat (x ++ b) = true) (hl : pat.length ≤ x.length) :
    startsWith pat x = true := by
  obtain ⟨u, hu⟩ := (startsWith_iff _ _).mp h
  apply (startsWith_iff _ _).mpr
  refine ⟨x.drop pat.length, ?_⟩
  have ht : pat = x.take pat.length := by
    have h1 := congrArg (List.take pat.length) hu
    rw [List.take_append_eq_append_take, List.take_append_eq_append_take,
      Nat.sub_eq_zero_of_le le_rfl, Nat.sub_eq_zero_of_le hl] at h1
    simpa using h1
  have h2 := List.take_append_drop pat.length x
  rw [← ht] at h2
  exact h2

theorem noCross_of_suffix (pat a' a b : List Char) (h : a' <:+ a)
    (hnc : NoCross pat a b) : NoCross pat a' b :=
  fun s' hs' hne hsw => hnc s' (hs'.trans h) hne hsw

theorem replaceFuel_append (pat rep : List Char) :
    ∀ fuel a b, (a ++ b).length ≤ fuel → NoCross pat a b →
      replaceFuel pat rep fuel (a ++ b) =
        replaceFuel pat rep fuel a ++ replaceFuel pat rep fuel b := by
  intro fuel
  induction fuel with
  | zero =>
    intro a b hlen _
    have hab : a = [] ∧ b = [] := by
      simp only [List.length_append] at hlen
      constructor <;> [exact List.length_eq_zero.mp (by omega);
        exact List.length_eq_zero.mp (by omega)]
    obtain ⟨rfl, rfl⟩ := hab
    simp [replaceFuel_nil]
  | succ f ih =>
    intro a b hlen hnc
    cases a with
    | nil => simp [replaceFuel_nil]
    | cons c rest =>
      simp only [List.length_append, List.length_cons] at hlen
      have hcross := hnc (c :: rest) (List.suffix_refl _) (by simp)
      by_cases h : startsWith pat (c :: rest) = true
      · have h' : startsWith pat (c :: (rest ++ b)) = true := by
          have hx := startsWith_of_append_left pat (c :: rest) b h
          rwa [List.cons_append] at hx
        have hpl : pat.length ≤ rest.length + 1 := by
          obtain ⟨u, hu⟩ := (startsWith_iff _ _).mp h
          have := congrArg List.length hu
          simp only [List.length_append, List.length_cons] at this
          omega
        have e1 : replaceFuel pat rep (f + 1) ((c :: rest) ++ b) =
            rep ++ replaceFuel pat rep f ((rest ++ b).drop (pat.length - 1)) := by
          rw [List.cons_append]
          simp [replaceFuel, h']
        have e2 : replaceFuel pat rep (f + 1) (c :: rest) =
            rep ++ replaceFuel pat rep f (rest.drop (pat.length - 1)) := by
          simp [replaceFuel, h]
        have hdr : (rest ++ b).drop (pat.length - 1) =
            rest.drop (pat.length - 1) ++ b := by
          rw [List.drop_append_eq_append_drop]
          have hz : pat.length - 1 - rest.length = 0 := by omega
          rw [hz]
          simp
        have hnc' : NoCross pat (rest.drop (pat.length - 1)) b :=
          noCross_of_suffix pat _ _ b
            ((List.drop_suffix _ _).trans (List.suffix_cons c rest)) hnc
        have hlen' : (rest.drop (pat.length - 1) ++ b).length ≤ f := by
          simp only [List.length_append, List.length_drop]
          omega
        have hb : replaceFuel pat rep f b = replaceFuel pat rep (f + 1) b :=
          replaceFuel_stable pat rep f (f + 1) b (by omega) (by omega)
        rw [e1, e2, hdr, ih _ b hlen' hnc', hb, List.append_assoc]
      · have h' : startsWith pat (c :: (rest ++ b)) = false := by
          rw [← List.cons_append]
          by_contra hc
          rw [Bool.not_eq_false] at hc
          exact h (startsWith_append_of_le pat (c :: rest) b hc (hcross hc))
        have e1 : replaceFuel pat rep (f + 1) ((c :: rest) ++ b) =
            c :: replaceFuel pat rep f (rest ++ b) := by
          rw [List.cons_append]
          simp [replaceFuel, h']
        have e2 : replaceFuel pat rep (f + 1) (c :: rest) =
            c :: replaceFuel pat rep f rest := by
          simp [replaceFuel, h]
        have hnc' : NoCross pat rest b :=
          noCross_of_suffix pat rest _ b (List.suffix_cons c rest) hnc
        have hb : replaceFuel pat rep f b = replaceFuel pat rep (f + 1) b :=
          replaceFuel_stable pat rep f (f + 1) b (by omega) (by omega)
        rw [e1, e2, ih _ b (by simp only [List.length_append]; omega) hnc', hb,
          List.cons_append]

theorem mem_gt_of_suffix_markOpen (s' : List Char) (h : s' <:+ markOpen)
    (hne : s' ≠ []) : '>' ∈ s' := by
  obtain ⟨t, ht⟩ := h
  have hdrop : s' = markOpen.drop t.length := by
    rw [← ht, List.drop_left]
  have hlen : t.length ≤ 5 := by
    have h1 := congrArg List.length ht
    have h2 : 1 ≤ s'.length := List.length_pos.mpr hne
    simp only [List.length_append, markOpen_eq, List.length_cons,
      List.length_nil] at h1
    omega
  obtain ⟨k, hk, rfl⟩ : ∃ k, k ≤ 5 ∧ s' = markOpen.drop k := ⟨t.length, hlen, hdrop⟩
  interval_cases k <;> decide

theorem mem_gt_of_suffix_markClose (s' : List Char) (h : s' <:+ markClose)
    (hne : s' ≠ []) : '>' ∈ s' := by
  obtain ⟨t, ht⟩ := h
  have hdrop : s' = markClose.drop t.length := by
    rw [← ht, List.drop_left]
  have hlen : t.length ≤ 6 := by
    have h1 := congrArg List.length ht
    have h2 : 1 ≤ s'.length := List.length_pos.mpr hne
    simp only [List.length_append, markClose_eq, List.length_cons,
      List.length_nil] at h1
    omega
  obtain ⟨k, hk, rfl⟩ : ∃ k, k ≤ 6 ∧ s' = markClose.drop k := ⟨t.length, hlen, hdrop⟩
  interval_cases k <;> decide

theorem noCross_markOpen (pat b : List Char) (hgt : '>' ∉ pat) :
    NoCross pat markOpen b := by
  intro s' hsuf hne hsw
  by_contra hlt
  push_neg at hlt
  have h1 : '>' ∈ s' := mem_gt_of_suffix_markOpen s' hsuf hne
  obtain ⟨u, hu⟩ := (startsWith_iff _ _).mp hsw
  have h2 : pat.take s'.length = s' := by
    have h3 := congrArg (List.take s'.length) hu
    rw [List.take_append_eq_append_take, List.take_append_eq_append_take,
      Nat.sub_eq_zero_of_le (Nat.le_of_lt hlt), Nat.sub_eq_zero_of_le le_rfl] at h3
    simpa using h3
  exact hgt ((h2 ▸ List.take_subset s'.length pat) h1)

theorem noCross_markClose (pat b : List Char) (hgt : '>' ∉ pat) :
    NoCross pat markClose b := by
  intro s' hsuf hne hsw
  by_contra hlt
  push_neg at hlt
  have h1 : '>' ∈ s' := mem_gt_of_suffix_markClose s' hsuf hne
  obtain ⟨u, hu⟩ := (startsWith_iff _ _).mp hsw
  have h2 : pat.take s'.length = s' := by
    have h3 := congrArg (List.take s'.length) hu
    rw [List.take_append_eq_append_take, List.take_append_eq_append_take,
      Nat.sub_eq_zero_of_le (Nat.le_of_lt hlt), Nat.sub_eq_zero_of_le le_rfl] at h3
    simpa using h3
  exact hgt ((h2 ▸ List.take_subset s'.length pat) h1)

theorem ins_dropRaw : ∀ (pat : List Char), '<' ∉ pat →
    ∀ s d, Ins s d → startsWith pat s = true →
      startsWith pat d = true ∧ Ins (s.drop pat.length) (d.drop pat.length) := by
  intro pat
  induction pat with
  | nil =>
    intro _ s d hins _
    exact ⟨rfl, by simpa using hins⟩
  | cons p ps ih =>
    intro hlt s d hins hsw
    cases hins with
    | nil => simp [startsWith] at hsw
    | chr c s₀ d₀ hc1 hc2 h' =>
      simp only [startsWith, Bool.and_eq_true, beq_iff_eq] at hsw
      obtain ⟨rfl, hsw'⟩ := hsw
      obtain ⟨hd, hi⟩ :=
        ih (fun hm => hlt (List.mem_cons_of_mem _ hm)) s₀ d₀ h' hsw'
      refine ⟨?_, ?_⟩
      · simp [startsWith, hd]
      · simpa [List.length_cons, List.drop_succ_cons] using hi
    | op s₀ d h' =>
      simp only [startsWith, Bool.and_eq_true, beq_iff_eq] at hsw
      exact absurd (hsw.1 ▸ List.mem_cons_self p ps) hlt
    | cl s₀ d h' =>
      simp only [startsWith, Bool.and_eq_true, beq_iff_eq] at hsw
      exact absurd (hsw.1 ▸ List.mem_cons_self p ps) hlt

theorem ins_append_raw : ∀ (p x y : List Char),
    (∀ c ∈ p, c ≠ '<' ∧ c ≠ '>') → Ins x y → Ins (p ++ x) (p ++ y) := by
  intro p
  induction p with
  | nil => intro x y _ h; simpa using h
  | cons a as ih =>
    intro x y hp h
    have ha := hp a (List.mem_cons_self _ _)
    exact Ins.chr a _ _ ha.1 ha.2
      (ih x y (fun c hc => hp c (List.mem_cons_of_mem _ hc)) h)

theorem ins_replace (pat : List Char) (hp : pat ≠ []) (hlt : '<' ∉ pat)
    (hgt : '>' ∉ pat) (hmo : ¬ pat <:+: markOpen) (hmc : ¬ pat <:+: markClose) :
    ∀ fuel s d, s.length ≤ fuel → Ins s d →
      Ins (replaceFuel pat (markWrap pat) fuel s) d := by
  have hchars : ∀ c ∈ pat, c ≠ '<' ∧ c ≠ '>' :=
    fun c hc => ⟨fun e => hlt (e ▸ hc), fun e => hgt (e ▸ hc)⟩
  intro fuel
  induction fuel with
  | zero =>
    intro s d hlen hins
    have hnil : s = [] := List.length_eq_zero.mp (Nat.le_zero.mp hlen)
    subst hnil
    cases hins
    rw [replaceFuel_nil]
    exact Ins.nil
  | succ f ih =>
    intro s d hlen hins
    cases hins with
    | nil =>
      rw [replaceFuel_nil]
      exact Ins.nil
    | chr c s₀ d₀ hc1 hc2 h' =>
      simp only [List.length_cons] at hlen
      by_cases h : startsWith pat (c :: s₀) = true
      · obtain ⟨hswd, hinsDrop⟩ :=
          ins_dropRaw pat hlt (c :: s₀) (c :: d₀) (Ins.chr c s₀ d₀ hc1 hc2 h') h
        obtain ⟨u, hu⟩ := (startsWith_iff _ _).mp hswd
        have hudrop : u = (c :: d₀).drop pat.length := by
          rw [← hu, List.drop_left]
        obtain ⟨n, hn⟩ : ∃ n, pat.length = n + 1 := by
          cases pat with
          | nil => exact absurd rfl hp
          | cons a as => exact ⟨as.length, rfl⟩
        have e : replaceFuel pat (markWrap pat) (f + 1) (c :: s₀) =
            markWrap pat ++ replaceFuel pat (markWrap pat) f
              (s₀.drop (pat.length - 1)) := by
          simp [replaceFuel, h]
        have hsdrop : s₀.drop (pat.length - 1) = (c :: s₀).drop pat.length := by
          rw [hn]
          simp
        have hR : Ins (replaceFuel pat (markWrap pat) f ((c :: s₀).drop pat.length))
            ((c :: d₀).drop pat.length) := by
          apply ih _ _ _ hinsDrop
          simp only [List.length_drop, List.length_cons]
          omega
        rw [e, hsdrop, ← hu, hudrop]
        have hassoc : markWrap pat ++ replaceFuel pat (markWrap pat) f
              ((c :: s₀).drop pat.length) =
            markOpen ++ (pat ++ (markClose ++ replaceFuel pat (markWrap pat) f
              ((c :: s₀).drop pat.length))) := by
          simp [markWrap, List.append_assoc]
        rw [hassoc]
        exact Ins.op _ _ (ins_append_raw pat _ _ hchars (Ins.cl _ _ hR))
      · have e : replaceFuel pat (markWrap pat) (f + 1) (c :: s₀) =
            c :: replaceFuel pat (markWrap pat) f s₀ := by
          simp [replaceFuel, h]
        rw [e]
        exact Ins.chr c _ _ hc1 hc2 (ih s₀ d₀ (by omega) h')
    | op s₀ d h' =>
      have hlen6 : s₀.length + 6 ≤ f + 1 := by
        simpa using hlen
      show Ins (replaceFuel pat (markWrap pat) (f + 1) (markOpen ++ s₀)) d
      rw [replaceFuel_append pat (markWrap pat) (f + 1) markOpen s₀
          (by simp [markOpen_eq]; omega) (noCross_markOpen pat s₀ hgt),
        replaceFuel_no_occur pat (markWrap pat) (f + 1) markOpen
          (by simp [markOpen_eq]; omega) hmo,
        replaceFuel_stable pat (markWrap pat) (f + 1) f s₀ (by omega) (by omega)]
      exact Ins.op _ _ (ih s₀ d (by omega) h')
    | cl s₀ d h' =>
      have hlen7 : s₀.length + 7 ≤ f + 1 := by
        simpa using hlen
      show Ins (replaceFuel pat (markWrap pat) (f + 1) (markClose ++ s₀)) d
      rw [replaceFuel_append pat (markWrap pat) (f + 1) markClose s₀
          (by simp [markClose_eq]; omega) (noCross_markClose pat s₀ hgt),
        replaceFuel_no_occur pat (markWrap pat) (f + 1) markClose
          (by simp [markClose_eq]; omega) hmc,
        replaceFuel_stable pat (markWrap pat) (f + 1) f s₀ (by omega) (by omega)]
      exact Ins.cl _ _ (ih s₀ d (by omega) h')

theorem stripFuel_nil (fuel : Nat) : stripFuel fuel [] = [] := by
  cases fuel <;> rfl

theorem startsWith_self_append : ∀ (x y : List Char), startsWith x (x ++ y) = true := by
  intro x
  induction x with
  | nil => intro y; rfl
  | cons a as ih => intro y; simp [startsWith, ih]

theorem ins_strip : ∀ s d, Ins s d → ∀ fuel, s.length ≤ fuel → stripFuel fuel s = d := by
  intro s d hins
  induction hins with
  | nil => intro fuel _; exact stripFuel_nil fuel
  | chr c s₀ d₀ hc1 hc2 h' ih =>
    intro fuel hlen
    cases fuel with
    | zero => exact absurd hlen (by simp)
    | succ f =>
      have hne1 : ('<' == c) = false := beq_eq_false_iff_ne.mpr (fun e => hc1 e.symm)
      have h1 : startsWith markOpen (c :: s₀) = false := by
        simp [markOpen_eq, startsWith, hne1]
      have h2 : startsWith markClose (c :: s₀) = false := by
        simp [markClose_eq, startsWith, hne1]
      have e : stripFuel (f + 1) (c :: s₀) = c :: stripFuel f s₀ := by
        simp [stripFuel, h1, h2]
      rw [e, ih f (by simp only [List.length_cons] at hlen; omega)]
  | op s₀ d h' ih =>
    intro fuel hlen
    cases fuel with
    | zero => exact absurd hlen (by simp)
    | succ f =>
      have h1 : startsWith ['<', 'm', 'a', 'r', 'k', '>']
          ('<' :: 'm' :: 'a' :: 'r' :: 'k' :: '>' :: s₀) = true :=
        startsWith_self_append markOpen s₀
      have e : stripFuel (f + 1) ('<' :: 'm' :: 'a' :: 'r' :: 'k' :: '>' :: s₀) =
          stripFuel f s₀ := by
        simp [stripFuel, markOpen_eq, h1]
      rw [e, ih f (by simp only [List.length_cons] at hlen; omega)]
  | cl s₀ d h' ih =>
    intro fuel hlen
    cases fuel with
    | zero => exact absurd hlen (by simp)
    | succ f =>
      have hm : ('m' == '/') = false := by decide
      have h1 : startsWith ['<', 'm', 'a', 'r', 'k', '>']
          ('<' :: '/' :: 'm' :: 'a' :: 'r' :: 'k' :: '>' :: s₀) = false := by
        simp [startsWith, hm]
      have h2 : startsWith ['<', '/', 'm', 'a', 'r', 'k', '>']
          ('<' :: '/' :: 'm' :: 'a' :: 'r' :: 'k' :: '>' :: s₀) = true :=
        startsWith_self_append markClose s₀
      have e : stripFuel (f + 1) ('<' :: '/' :: 'm' :: 'a' :: 'r' :: 'k' :: '>' :: s₀) =
          stripFuel f s₀ := by
        simp [stripFuel, markOpen_eq, markClose_eq, h1, h2]
      rw [e, ih f (by simp only [List.length_cons] at hlen; omega)]

theorem ins_of_clean : ∀ d : List Char, (∀ c ∈ d, c ≠ '<' ∧ c ≠ '>') → Ins d d := by
  intro d
  induction d with
  | nil => intro _; exact Ins.nil
  | cons c cs ih =>
    intro h
    have hc := h c (List.mem_cons_self _ _)
    exact Ins.chr c _ _ hc.1 hc.2 (ih (fun x hx => h x (List.mem_cons_of_mem _ hx)))

/-- C5: for a document free of the marker characters `<` and `>` and chunk
texts that are nonempty, marker-character-free and not substrings of the
marker strings themselves (so no chunk can match inside another chunk's
inserted markers), highlighting only inserts whole `<mark>`/`</mark>` marker
strings around text of the original document: removing every inserted marker
from the output restores the original document text exactly (the
strip-markers round trip), so exactly the matched substrings are marked and
all other text is unchanged. -/
theorem c5_strip_markers_round_trip (doc : List Char) (context : List (List Char))
    (hdoc : ∀ c ∈ doc, c ≠ '<' ∧ c ≠ '>')
    (hctx : ∀ t ∈ context, t ≠ [] ∧ (∀ c ∈ t, c ≠ '<' ∧ c ≠ '>') ∧
      ¬ t <:+: markOpen ∧ ¬ t <:+: markClose) :
    stripMarkers (highlightAll doc context) = doc := by
  have key : ∀ (l : List (List Char)) (s : List Char),
      (∀ t ∈ l, t ≠ [] ∧ (∀ c ∈ t, c ≠ '<' ∧ c ≠ '>') ∧
        ¬ t <:+: markOpen ∧ ¬ t <:+: markClose) →
      Ins s doc → Ins (highlightAll s l) doc := by
    intro l
    induction l with
    | nil => intro s _ hs; exact hs
    | cons t ts ih =>
      intro s hl hs
      obtain ⟨ht1, ht2, ht3, ht4⟩ := hl t (List.mem_cons_self _ _)
      have hltc : '<' ∉ t := fun hm => (ht2 '<' hm).1 rfl
      have hgtc : '>' ∉ t := fun hm => (ht2 '>' hm).2 rfl
      have hstep : Ins (highlightStep s t) doc := by
        unfold highlightStep pyReplace
        rw [if_neg ht1]
        exact ins_replace t ht1 hltc hgtc ht3 ht4 s.length s doc le_rfl hs
      exact ih (highlightStep s t) (fun x hx => hl x (List.mem_cons_of_mem _ hx)) hstep
  exact ins_strip _ _ (key context doc hctx (ins_of_clean doc hdoc)) _ le_rfl

theorem c5_strip_markers_round_trip_witness :
    stripMarkers (highlightAll "the cat sat".data ["cat".data]) = "the cat sat".data :=
  c5_strip_markers_round_trip "the cat sat".data ["cat".data] (by decide) (by decide)

end RAGZh
